/-
Verification of the ERI data-import core of the capital-gains-calculator
repository (src/cgt_calc/parsers/eri/data_import.py and model.py).

Shallow embedding notes:
* `datetime.date` is embedded as `Nat` (dates form a totally ordered set;
  only equality and `≤` are used by the code).
* `Decimal` prices are embedded as `Rat` (arbitrary-precision decimals
  embed exactly into the rationals).
* `EriTransaction.price` is `Option Rat`: the underlying
  `BrokerTransaction.price` field is optional in the Python model and
  `validate_and_remove_duplicates` asserts it is not `None`.
* Python `dict` / `list` state is embedded as an association list plus an
  accumulator, threaded through an explicit recursion.
* Python exceptions / failed assertions are embedded as `Except` errors.
-/
import Mathlib

namespace EriImport

/-- Embeds `EriTransaction` from src/cgt_calc/parsers/eri/model.py:
date, isin, price, currency (the remaining `BrokerTransaction` fields are
constants and unused by the import code). -/
structure EriTransaction where
  date : Nat
  isin : String
  price : Option Rat
  currency : String
deriving DecidableEq, Repr

/-- The `(transaction.isin, transaction.date)` dictionary key used by
`validate_and_remove_duplicates`. -/
def keyOf (t : EriTransaction) : String × Nat :=
  (t.isin, t.date)

/-- Modelled from the spec: `approx_equal` lives in `cgt_calc/util.py`,
which is not part of the provided sources.  The spec describes it as
numerical equality "within an absolute tolerance" (§4.5), with the
boundary case `0.0001` itself merging silently (§8), i.e.
`|a - b| ≤ tol`. -/
def approx_equal (a b tol : Rat) : Bool :=
  |a - b| ≤ tol

/-- The tolerance `Decimal("0.0001")` from data_import.py line 63. -/
def eriTolerance : Rat := 0.0001

/-- Failure modes of `validate_and_remove_duplicates`:
the two `assert` statements on the incoming transaction, the `assert`
on the indexed transaction, and the raised `InvalidTransactionError`
(which carries the new transaction and the previously accepted one). -/
inductive MergeError where
  | priceNotSet (t : EriTransaction)
  | isinNotSet (t : EriTransaction)
  | duplicateDifferentPrice (t current : EriTransaction)
deriving DecidableEq, Repr

/-- Embeds Python `transaction_index[key]` lookup on the association-list
embedding of the dict. -/
def lookupKey (idx : List ((String × Nat) × EriTransaction))
    (k : String × Nat) : Option EriTransaction :=
  match idx with
  | [] => none
  | (k', t) :: rest => if k' = k then some t else lookupKey rest k

/-- Embeds the `for transaction in transactions:` loop of
`validate_and_remove_duplicates` (data_import.py lines 51-73).  `idx` is
the running `transaction_index`, `acc` the running `result` list held in
reverse. -/
def processTransactions (ts : List EriTransaction)
    (idx : List ((String × Nat) × EriTransaction))
    (acc : List EriTransaction) :
    Except MergeError (List EriTransaction) :=
  match ts with
  | [] => Except.ok acc.reverse
  | t :: rest =>
    match t.price with
    | none => Except.error (.priceNotSet t)
    | some p =>
      if t.isin = "" then
        Except.error (.isinNotSet t)
      else
        match lookupKey idx (keyOf t) with
        | some current =>
          match current.price with
          | none => Except.error (.priceNotSet current)
          | some cp =>
            if approx_equal cp p eriTolerance then
              processTransactions rest idx acc
            else
              Except.error (.duplicateDifferentPrice t current)
        | none =>
          processTransactions rest (idx ++ [(keyOf t, t)]) (t :: acc)

/-- The comparison used by `result.sort(key=lambda t: t.date)`. -/
def dateLe (a b : EriTransaction) : Prop :=
  a.date ≤ b.date

instance : DecidableRel dateLe := fun a b => Nat.decLe a.date b.date

/-- Embeds `validate_and_remove_duplicates` (data_import.py lines 44-75):
run the loop, then stably sort the result by date (Python `list.sort`
is stable; `List.insertionSort` with a non-strict key comparison is the
stable sort, and stable sorting has a unique result). -/
def validate_and_remove_duplicates (ts : List EriTransaction) :
    Except MergeError (List EriTransaction) :=
  (processTransactions ts [] []).map (List.insertionSort dateLe)

/-- The merge of an existing store with incoming records, as performed by
`eri_import_from_file` (data_import.py lines 95-97): the two sequences
are concatenated and passed through `validate_and_remove_duplicates` in
a single pass. -/
def merge (existing incoming : List EriTransaction) :
    Except MergeError (List EriTransaction) :=
  validate_and_remove_duplicates (existing ++ incoming)

/-- Embeds `EriParserOutput` from src/cgt_calc/parsers/eri/model.py. -/
structure EriParserOutput where
  transactions : List EriTransaction
  output_file_name : String
deriving DecidableEq, Repr

/-- Embeds an `EriParser` (model.py lines 46-58) by its name and its
`parse` method; input files are identified by strings.  `none` models
"file not accepted by this parser". -/
structure EriParser where
  name : String
  parse : String → Option EriParserOutput

/-- Python truthiness of an `EriParserOutput` value, as tested by
`assert data, ...` in data_import.py line 89: `EriParserOutput` is a
dataclass defining neither a `__bool__` nor a `__len__` method, so every
instance is truthy and the test never fails. -/
def EriParserOutput.truthy (_ : EriParserOutput) : Bool :=
  true

/-- The outcome of importing one file: either some parser accepted it and
the merged store was written, or the zero-transaction `assert` fired, or
the merge raised, or no parser accepted the file (a printed warning and a
normal return, not an error). -/
inductive ImportOutcome where
  | written (parserName : String) (storeName : String)
      (records : List EriTransaction)
  | assertFailedEmptyOutput (parserName : String)
  | mergeFailed (e : MergeError)
  | noParser
deriving DecidableEq, Repr

/-- The persisted stores, as a map from store file name
(`data.output_file_name`) to the record sequence held in that file. -/
def StoreMap : Type :=
  String → List EriTransaction

/-- Embeds the full rewrite of one store file
(`output_path.open("w")` + `writer.writerows`, data_import.py lines
99-111). -/
def updateStore (stores : StoreMap) (storeName : String)
    (records : List EriTransaction) : StoreMap :=
  fun n => if n = storeName then records else stores n

/-- Embeds `eri_import_from_file` (data_import.py lines 78-113): loop
over the parser list in order; the first parser returning non-`None`
output is used, the existing store for its `output_file_name` is read
(`read_eri_raw`, a codec whose source is outside src/ and which the spec
specifies as returning the stored record sequence), merged via
`validate_and_remove_duplicates`, and only on success is the store file
rewritten; the function then returns.  If every parser declines, a
warning is printed and nothing is written.  The concrete parser list
`ERI_PARSERS` (a `BlackrockParser`, defined outside src/) is kept as a
parameter. -/
def eri_import_from_file (parsers : List EriParser) (stores : StoreMap)
    (file : String) : StoreMap × ImportOutcome :=
  match parsers with
  | [] => (stores, .noParser)
  | p :: rest =>
    match p.parse file with
    | none => eri_import_from_file rest stores file
    | some data =>
      if data.truthy = false then
        (stores, .assertFailedEmptyOutput p.name)
      else
        match validate_and_remove_duplicates
            (stores data.output_file_name ++ data.transactions) with
        | .error e => (stores, .mergeFailed e)
        | .ok transactions =>
          (updateStore stores data.output_file_name transactions,
            .written p.name data.output_file_name transactions)

/-! ### Helper notions and lemmas -/

/-- A record satisfying the two `assert` preconditions of
`validate_and_remove_duplicates`: price set and identifier non-empty. -/
def goodRecord (t : EriTransaction) : Prop :=
  t.price ≠ none ∧ t.isin ≠ ""

instance (t : EriTransaction) : Decidable (goodRecord t) := by
  unfold goodRecord
  infer_instance

/-- The association list representing the dictionary whose entries are
exactly the records of `l`, keyed by `keyOf`. -/
def indexList (l : List EriTransaction) :
    List ((String × Nat) × EriTransaction) :=
  l.map (fun t => (keyOf t, t))

theorem indexList_append (l₁ l₂ : List EriTransaction) :
    indexList (l₁ ++ l₂) = indexList l₁ ++ indexList l₂ :=
  List.map_append _ l₁ l₂

theorem lookupKey_append (i₁ i₂ : List ((String × Nat) × EriTransaction))
    (k : String × Nat) :
    lookupKey (i₁ ++ i₂) k =
      match lookupKey i₁ k with
      | some u => some u
      | none => lookupKey i₂ k := by
  induction i₁ with
  | nil => simp [lookupKey]
  | cons kv rest ih =>
    obtain ⟨k', t⟩ := kv
    by_cases h : k' = k <;> simp [lookupKey, h, ih]

theorem lookupKey_indexList_eq_none (l : List EriTransaction)
    (k : String × Nat) :
    lookupKey (indexList l) k = none ↔ ∀ t ∈ l, keyOf t ≠ k := by
  induction l with
  | nil => simp [indexList, lookupKey]
  | cons t rest ih =>
    by_cases h : keyOf t = k <;> simp [indexList, lookupKey, h] at ih ⊢
    exact ih

theorem lookupKey_indexList_mem (l : List EriTransaction)
    (k : String × Nat) (u : EriTransaction)
    (h : lookupKey (indexList l) k = some u) : u ∈ l ∧ keyOf u = k := by
  induction l with
  | nil => simp [indexList, lookupKey] at h
  | cons t rest ih =>
    by_cases ht : keyOf t = k
    · simp [indexList, lookupKey, ht] at h
      simp [← h, ht]
    · simp [indexList, lookupKey, ht] at h
      have := ih h
      exact ⟨List.mem_cons_of_mem _ this.1, this.2⟩

theorem lookupKey_indexList_of_mem (l : List EriTransaction)
    (u : EriTransaction) (hnd : (l.map keyOf).Nodup) (hu : u ∈ l) :
    lookupKey (indexList l) (keyOf u) = some u := by
  induction l with
  | nil => simp at hu
  | cons t rest ih =>
    simp only [List.map_cons, List.nodup_cons] at hnd
    rcases List.mem_cons.1 hu with rfl | hu'
    · simp [indexList, lookupKey]
    · have hne : keyOf t ≠ keyOf u := by
        intro he
        exact hnd.1 (he ▸ List.mem_map_of_mem keyOf hu')
      simp [indexList, lookupKey, hne]
      exact ih hnd.2 hu'

theorem approx_equal_refl (p tol : Rat) (htol : 0 ≤ tol) :
    approx_equal p p tol = true := by
  simp [approx_equal, htol]

theorem validate_eq_ok_iff (ts res : List EriTransaction) :
    validate_and_remove_duplicates ts = .ok res ↔
      ∃ pre, processTransactions ts [] [] = .ok pre ∧
        res = List.insertionSort dateLe pre := by
  unfold validate_and_remove_duplicates
  cases h : processTransactions ts [] [] with
  | error e => simp [h, Except.map]
  | ok pre =>
    simp only [h, Except.map, Except.ok.injEq]
    constructor
    · rintro rfl
      exact ⟨pre, rfl, rfl⟩
    · rintro ⟨pre', hpre', rfl⟩
      cases hpre'
      rfl

theorem lookupKey_mem (idx : List ((String × Nat) × EriTransaction))
    (k : String × Nat) (u : EriTransaction)
    (h : lookupKey idx k = some u) : (k, u) ∈ idx := by
  induction idx with
  | nil => simp [lookupKey] at h
  | cons kv rest ih =>
    obtain ⟨k', t⟩ := kv
    by_cases hk : k' = k
    · simp [lookupKey, hk] at h
      simp [hk, h]
    · simp [lookupKey, hk] at h
      exact List.mem_cons_of_mem _ (ih h)

theorem processTransactions_error_of_bad :
    ∀ (ts : List EriTransaction) idx acc,
      (∃ t ∈ ts, ¬goodRecord t) →
      ∃ e, processTransactions ts idx acc = .error e := by
  intro ts
  induction ts with
  | nil => intro idx acc h; simp at h
  | cons t rest ih =>
    intro idx acc h
    cases hp : t.price with
    | none => exact ⟨.priceNotSet t, by simp [processTransactions, hp]⟩
    | some p =>
      by_cases hi : t.isin = ""
      · exact ⟨.isinNotSet t, by simp [processTransactions, hp, hi]⟩
      · have hrest : ∃ u ∈ rest, ¬goodRecord u := by
          obtain ⟨u, hu, hbad⟩ := h
          rcases List.mem_cons.1 hu with rfl | hu'
          · exact absurd ⟨by simp [hp], hi⟩ hbad
          · exact ⟨u, hu', hbad⟩
        cases hl : lookupKey idx (keyOf t) with
        | none =>
          obtain ⟨e, he⟩ := ih (idx ++ [(keyOf t, t)]) (t :: acc) hrest
          exact ⟨e, by simp [processTransactions, hp, hi, hl, he]⟩
        | some current =>
          cases hcp : current.price with
          | none =>
            exact ⟨.priceNotSet current,
              by simp [processTransactions, hp, hi, hl, hcp]⟩
          | some cp =>
            by_cases ha : approx_equal cp p eriTolerance
            · obtain ⟨e, he⟩ := ih idx acc hrest
              exact ⟨e, by simp [processTransactions, hp, hi, hl, hcp, ha, he]⟩
            · exact ⟨.duplicateDifferentPrice t current,
                by simp [processTransactions, hp, hi, hl, hcp, ha]⟩

theorem processTransactions_error_good :
    ∀ (ts : List EriTransaction) idx acc (e : MergeError),
      (∀ t ∈ ts, goodRecord t) →
      (∀ kv ∈ idx, (Prod.snd kv).price ≠ none) →
      processTransactions ts idx acc = .error e →
      ∃ t current, e = .duplicateDifferentPrice t current := by
  intro ts
  induction ts with
  | nil => intro idx acc e _ _ h; simp [processTransactions] at h
  | cons t rest ih =>
    intro idx acc e hg hidx h
    obtain ⟨hp, hi⟩ := hg t (List.mem_cons_self t rest)
    obtain ⟨p, hp'⟩ := Option.ne_none_iff_exists'.1 hp
    have hg' : ∀ u ∈ rest, goodRecord u :=
      fun u hu => hg u (List.mem_cons_of_mem _ hu)
    cases hl : lookupKey idx (keyOf t) with
    | none =>
      simp only [processTransactions, hp', hl, if_neg hi] at h
      refine ih _ _ e hg' ?_ h
      intro kv hkv
      rcases List.mem_append.1 hkv with hkv' | hkv'
      · exact hidx kv hkv'
      · simp at hkv'
        subst hkv'
        simp [hp']
    | some current =>
      have hcp : current.price ≠ none := hidx (keyOf t, current) (lookupKey_mem idx _ _ hl)
      obtain ⟨cp, hcp'⟩ := Option.ne_none_iff_exists'.1 hcp
      by_cases ha : approx_equal cp p eriTolerance
      · simp only [processTransactions, hp', hl, hcp', if_neg hi, ha,
          if_true] at h
        exact ih _ _ e hg' hidx h
      · simp only [processTransactions, hp', hl, hcp', if_neg hi,
          Bool.not_eq_true] at h
        rw [if_neg ha] at h
        exact ⟨t, current, (Except.error.inj h).symm⟩

theorem processTransactions_all_skipped :
    ∀ (I : List EriTransaction) idx acc,
      (∀ t ∈ I, ∃ u pu pt, lookupKey idx (keyOf t) = some u ∧
          u.price = some pu ∧ t.price = some pt ∧ t.isin ≠ "" ∧
          approx_equal pu pt eriTolerance = true) →
      processTransactions I idx acc = .ok acc.reverse := by
  intro I
  induction I with
  | nil => intro idx acc _; rfl
  | cons t rest ih =>
    intro idx acc h
    obtain ⟨u, pu, pt, hl, hpu, hpt, hi, ha⟩ := h t (List.mem_cons_self t rest)
    simp only [processTransactions, hpt, hl, hpu, if_neg hi, ha, if_true]
    exact ih idx acc (fun v hv => h v (List.mem_cons_of_mem _ hv))

theorem processTransactions_append_fresh :
    ∀ (S rest : List EriTransaction) idx acc,
      (∀ t ∈ S, goodRecord t) →
      (∀ t ∈ S, lookupKey idx (keyOf t) = none) →
      ((S.map keyOf).Nodup) →
      processTransactions (S ++ rest) idx acc =
        processTransactions rest (idx ++ indexList S) (S.reverse ++ acc) := by
  intro S
  induction S with
  | nil => intro rest idx acc _ _ _; simp [indexList]
  | cons t S' ih =>
    intro rest idx acc hg hf hnd
    obtain ⟨hp, hi⟩ := hg t (List.mem_cons_self t S')
    obtain ⟨p, hp'⟩ := Option.ne_none_iff_exists'.1 hp
    have hft := hf t (List.mem_cons_self t S')
    simp only [List.map_cons, List.nodup_cons] at hnd
    simp only [List.cons_append, processTransactions, hp', hft, if_neg hi]
    have hf' : ∀ u ∈ S', lookupKey (idx ++ [(keyOf t, t)]) (keyOf u) = none := by
      intro u hu
      rw [lookupKey_append, hf u (List.mem_cons_of_mem _ hu)]
      have hne : keyOf t ≠ keyOf u := by
        intro he
        exact hnd.1 (he ▸ List.mem_map_of_mem keyOf hu)
      simp [lookupKey, hne]
    have hih := ih rest (idx ++ [(keyOf t, t)]) (t :: acc)
      (fun u hu => hg u (List.mem_cons_of_mem _ hu)) hf' hnd.2
    refine hih.trans ?_
    have h1 : idx ++ [(keyOf t, t)] ++ indexList S' =
        idx ++ indexList (t :: S') := by
      simp [indexList]
    have h2 : S'.reverse ++ (t :: acc) = (t :: S').reverse ++ acc := by
      simp
    rw [h1, h2]

theorem processTransactions_ok :
    ∀ (ts acc res : List EriTransaction),
      (∀ t ∈ acc, goodRecord t) →
      ((acc.map keyOf).Nodup) →
      processTransactions ts (indexList acc.reverse) acc = .ok res →
      (∀ t ∈ acc, t ∈ res) ∧
      (∀ t ∈ res, goodRecord t) ∧
      ((res.map keyOf).Nodup) ∧
      (∀ t ∈ ts, goodRecord t) ∧
      (∀ t ∈ ts, ∃ u pu pt, u ∈ res ∧ keyOf u = keyOf t ∧
          u.price = some pu ∧ t.price = some pt ∧
          approx_equal pu pt eriTolerance = true) := by
  intro ts
  induction ts with
  | nil =>
    intro acc res hg hnd h
    simp only [processTransactions, Except.ok.injEq] at h
    subst h
    refine ⟨fun t ht => List.mem_reverse.2 ht,
      fun t ht => hg t (List.mem_reverse.1 ht), ?_, by simp, by simp⟩
    simpa using hnd
  | cons t rest ih =>
    intro acc res hg hnd h
    cases hp : t.price with
    | none => simp [processTransactions, hp] at h
    | some p =>
      by_cases hi : t.isin = ""
      · simp [processTransactions, hp, hi] at h
      · cases hl : lookupKey (indexList acc.reverse) (keyOf t) with
        | some current =>
          have hcmem : current ∈ acc ∧ keyOf current = keyOf t := by
            have := lookupKey_indexList_mem _ _ _ hl
            exact ⟨List.mem_reverse.1 this.1, this.2⟩
          obtain ⟨hcp, _⟩ := hg current hcmem.1
          obtain ⟨cp, hcp'⟩ := Option.ne_none_iff_exists'.1 hcp
          by_cases ha : approx_equal cp p eriTolerance
          · simp only [processTransactions, hp, hl, hcp', if_neg hi, ha,
              if_true] at h
            obtain ⟨m1, m2, m3, m4, m5⟩ := ih acc res hg hnd h
            refine ⟨m1, m2, m3, ?_, ?_⟩
            · intro u hu
              rcases List.mem_cons.1 hu with rfl | hu'
              · exact ⟨by simp [hp], hi⟩
              · exact m4 u hu'
            · intro u hu
              rcases List.mem_cons.1 hu with rfl | hu'
              · exact ⟨current, cp, p, m1 current hcmem.1, hcmem.2, hcp',
                  hp, ha⟩
              · exact m5 u hu'
          · simp only [processTransactions, hp, hl, hcp', if_neg hi,
              Bool.not_eq_true] at h
            rw [if_neg ha] at h
            exact absurd h (by simp)
        | none =>
          have hfresh : keyOf t ∉ acc.map keyOf := by
            intro hmem
            obtain ⟨u, hu, hku⟩ := List.mem_map.1 hmem
            have := (lookupKey_indexList_eq_none _ _).1 hl u
              (List.mem_reverse.2 hu)
            exact this hku
          simp only [processTransactions, hp, hl, if_neg hi] at h
          have hidx : indexList acc.reverse ++ [(keyOf t, t)] =
              indexList ((t :: acc).reverse) := by
            simp [indexList]
          rw [hidx] at h
          have hg' : ∀ u ∈ t :: acc, goodRecord u := by
            intro u hu
            rcases List.mem_cons.1 hu with rfl | hu'
            · exact ⟨by simp [hp], hi⟩
            · exact hg u hu'
          have hnd' : ((t :: acc).map keyOf).Nodup := by
            simp only [List.map_cons, List.nodup_cons]
            exact ⟨hfresh, hnd⟩
          obtain ⟨m1, m2, m3, m4, m5⟩ := ih (t :: acc) res hg' hnd' h
          refine ⟨fun u hu => m1 u (List.mem_cons_of_mem _ hu), m2, m3,
            ?_, ?_⟩
          · intro u hu
            rcases List.mem_cons.1 hu with rfl | hu'
            · exact ⟨by simp [hp], hi⟩
            · exact m4 u hu'
          · intro u hu
            rcases List.mem_cons.1 hu with rfl | hu'
            · refine ⟨u, p, p, m1 u (List.mem_cons_self u acc), rfl, hp,
                hp, approx_equal_refl p eriTolerance (by norm_num [eriTolerance])⟩
            · exact m5 u hu'

instance : IsTotal EriTransaction dateLe :=
  ⟨fun a b => Nat.le_total a.date b.date⟩

instance : IsTrans EriTransaction dateLe :=
  ⟨fun _ _ _ => Nat.le_trans⟩

theorem filter_orderedInsert (a : EriTransaction) (l : List EriTransaction)
    (d : Nat) :
    (List.orderedInsert dateLe a l).filter (fun t => t.date == d) =
      if a.date = d then a :: l.filter (fun t => t.date == d)
      else l.filter (fun t => t.date == d) := by
  induction l with
  | nil => by_cases hpa : a.date = d <;> simp [List.orderedInsert, hpa]
  | cons b l ih =>
    rw [List.orderedInsert]
    by_cases hab : dateLe a b
    · rw [if_pos hab]
      by_cases hpa : a.date = d <;> simp [List.filter_cons, hpa]
    · rw [if_neg hab]
      have hbd : b.date < a.date := Nat.lt_of_not_le hab
      by_cases hpa : a.date = d
      · have hpb : ¬(b.date = d) := by omega
        simp [List.filter_cons, ih, hpa, hpb]
      · simp [List.filter_cons, ih, hpa]

theorem filter_insertionSort (l : List EriTransaction) (d : Nat) :
    (List.insertionSort dateLe l).filter (fun t => t.date == d) =
      l.filter (fun t => t.date == d) := by
  induction l with
  | nil => rfl
  | cons a l ih =>
    rw [List.insertionSort, filter_orderedInsert, ih]
    by_cases hpa : a.date = d <;> simp [List.filter_cons, hpa]

theorem validate_pair (t1 t2 : EriTransaction) (p1 p2 : Rat)
    (h1 : t1.price = some p1) (h2 : t2.price = some p2)
    (hi1 : t1.isin ≠ "") (hi2 : t2.isin ≠ "")
    (hkey : keyOf t1 = keyOf t2) :
    validate_and_remove_duplicates [t1, t2] =
      if approx_equal p1 p2 eriTolerance then Except.ok [t1]
      else Except.error (.duplicateDifferentPrice t2 t1) := by
  simp only [validate_and_remove_duplicates, processTransactions, h1, h2,
    if_neg hi1, if_neg hi2, lookupKey, if_pos hkey]
  by_cases ha : approx_equal p1 p2 eriTolerance <;>
    simp [ha, Except.map, List.insertionSort, List.orderedInsert]

theorem validate_eq_error_iff (ts : List EriTransaction) (e : MergeError) :
    validate_and_remove_duplicates ts = .error e ↔
      processTransactions ts [] [] = .error e := by
  unfold validate_and_remove_duplicates
  cases h : processTransactions ts [] [] <;> simp [h, Except.map]

/-! ### Example records for concrete evaluations -/

def exA : EriTransaction := ⟨1, "GB0001", some 1.23, "GBP"⟩

def exB : EriTransaction := ⟨1, "GB0001", some 1.2301, "GBP"⟩

def exC : EriTransaction := ⟨1, "GB0001", some 1.5, "GBP"⟩

def exD : EriTransaction := ⟨0, "GB0002", some 2.5, "USD"⟩

def exE1 : EriTransaction := ⟨5, "GB0003", some 1, "GBP"⟩

def exE2 : EriTransaction := ⟨5, "GB0004", some 2, "GBP"⟩

/-! ### Claims -/

/-- C1: the merge feeds `existing ++ incoming` through the single
deduplicating pass, and that pass handles each record in order as
follows: a record whose `(isin, date)` key is not in the running index is
appended to the output and registered in the index; a record whose key
hits a previously accepted record whose price is within the absolute
tolerance `0.0001` is silently skipped, retaining the previously accepted
record; a record whose key hits a previously accepted record whose price
is beyond the tolerance makes the merge fail with an error carrying both
the new record and the previously accepted one. -/
theorem merge_processes_records_in_order
    (t : EriTransaction) (rest : List EriTransaction)
    (idx : List ((String × Nat) × EriTransaction))
    (acc : List EriTransaction) (p : Rat)
    (hp : t.price = some p) (hi : t.isin ≠ "") :
    (∀ existing incoming : List EriTransaction,
        merge existing incoming =
          (processTransactions (existing ++ incoming) [] []).map
            (List.insertionSort dateLe)) ∧
    (lookupKey idx (keyOf t) = none →
        processTransactions (t :: rest) idx acc =
          processTransactions rest (idx ++ [(keyOf t, t)]) (t :: acc)) ∧
    (∀ current cp, lookupKey idx (keyOf t) = some current →
        current.price = some cp →
        approx_equal cp p eriTolerance = true →
        processTransactions (t :: rest) idx acc =
          processTransactions rest idx acc) ∧
    (∀ current cp, lookupKey idx (keyOf t) = some current →
        current.price = some cp →
        approx_equal cp p eriTolerance = false →
        processTransactions (t :: rest) idx acc =
          Except.error (.duplicateDifferentPrice t current)) := by
  refine ⟨fun existing incoming => rfl, ?_, ?_, ?_⟩
  · intro hl
    simp [processTransactions, hp, hl, if_neg hi]
  · intro current cp hl hcp ha
    simp [processTransactions, hp, hl, hcp, if_neg hi, ha]
  · intro current cp hl hcp ha
    simp [processTransactions, hp, hl, hcp, if_neg hi, ha]

theorem merge_processes_records_in_order_witness :
    exB.price = some 1.2301 ∧ exB.isin ≠ "" ∧
    lookupKey [(keyOf exA, exA)] (keyOf exB) = some exA ∧
    approx_equal 1.23 1.2301 eriTolerance = true ∧
    processTransactions [exB] [(keyOf exA, exA)] [exA] =
      processTransactions [] [(keyOf exA, exA)] [exA] :=
  ⟨rfl, by decide, rfl,
    by norm_num [approx_equal, eriTolerance, abs_le],
    (merge_processes_records_in_order exB [] [(keyOf exA, exA)] [exA]
      1.2301 rfl (by decide)).2.2.1 exA 1.23 rfl rfl
      (by norm_num [approx_equal, eriTolerance, abs_le])⟩

/-- C3: for two records sharing a `(isin, date)` key, one already
accepted and one incoming, a price difference of at most the tolerance
`0.0001` (the boundary included) merges silently keeping the first
record, while a difference strictly above `0.0001` fails with the
conflict error naming both records. -/
theorem merge_tolerance_boundary
    (t1 t2 : EriTransaction) (p1 p2 : Rat)
    (h1 : t1.price = some p1) (h2 : t2.price = some p2)
    (hi1 : t1.isin ≠ "") (hi2 : t2.isin ≠ "")
    (hkey : keyOf t1 = keyOf t2) :
    (|p1 - p2| ≤ eriTolerance → merge [t1] [t2] = .ok [t1]) ∧
    (|p1 - p2| = eriTolerance → merge [t1] [t2] = .ok [t1]) ∧
    (eriTolerance < |p1 - p2| →
      merge [t1] [t2] = .error (.duplicateDifferentPrice t2 t1)) := by
  have hv := validate_pair t1 t2 p1 p2 h1 h2 hi1 hi2 hkey
  have hm : merge [t1] [t2] = validate_and_remove_duplicates [t1, t2] := rfl
  refine ⟨fun hle => ?_, fun heq => ?_, fun hlt => ?_⟩
  · have ha : approx_equal p1 p2 eriTolerance = true := by
      simpa [approx_equal] using hle
    rw [hm, hv, ha, if_pos rfl]
  · have ha : approx_equal p1 p2 eriTolerance = true := by
      simpa [approx_equal] using le_of_eq heq
    rw [hm, hv, ha, if_pos rfl]
  · have ha : approx_equal p1 p2 eriTolerance = false := by
      simpa [approx_equal] using not_le.2 hlt
    rw [hm, hv, ha]
    simp

theorem merge_tolerance_boundary_witness :
    |(1.23 : Rat) - 1.2301| = eriTolerance ∧
    merge [exA] [exB] = .ok [exA] ∧
    eriTolerance < |(1.23 : Rat) - 1.5| ∧
    merge [exA] [exC] = .error (.duplicateDifferentPrice exC exA) :=
  ⟨by rw [abs_sub_comm]; norm_num [eriTolerance, abs_eq],
    (merge_tolerance_boundary exA exB 1.23 1.2301 rfl rfl (by decide)
      (by decide) rfl).2.1
      (by rw [abs_sub_comm]; norm_num [eriTolerance, abs_eq]),
    by norm_num [eriTolerance, lt_abs],
    (merge_tolerance_boundary exA exC 1.23 1.5 rfl rfl (by decide)
      (by decide) rfl).2.2 (by norm_num [eriTolerance, lt_abs])⟩

/-- C5: after a successful merge, no two records of the returned
sequence share a `(isin, date)` key. -/
theorem merge_output_keys_nodup (E I res : List EriTransaction)
    (h : merge E I = .ok res) : (res.map keyOf).Nodup := by
  obtain ⟨pre, hpre, rfl⟩ := (validate_eq_ok_iff _ _).1 h
  have hm := processTransactions_ok (E ++ I) [] pre (by simp) (by simp) hpre
  have hperm : List.Perm (List.insertionSort dateLe pre) pre :=
    List.perm_insertionSort _ _
  exact ((hperm.map keyOf).nodup_iff).2 hm.2.2.1

theorem merge_output_keys_nodup_witness :
    merge [exA] [exD] = .ok [exD, exA] ∧
    (([exD, exA].map keyOf).Nodup) :=
  ⟨rfl, merge_output_keys_nodup [exA] [exD] [exD, exA] rfl⟩

/-- C9: a record with an unset price fails the merge immediately with the
price assertion, a record with an empty identifier fails it immediately
with the identifier assertion, the presence of any such record anywhere
in the input means the merge returns an error and produces no output, and
conversely when every record has a set price and a non-empty identifier
the only possible failure is the duplicate-price conflict (the
precondition branches are unreachable). -/
theorem merge_precondition_failures :
    (∀ (ts : List EriTransaction) (bad : EriTransaction), bad ∈ ts →
        (bad.price = none ∨ bad.isin = "") →
        ∃ e, validate_and_remove_duplicates ts = .error e) ∧
    (∀ (bad : EriTransaction) rest idx acc, bad.price = none →
        processTransactions (bad :: rest) idx acc =
          .error (.priceNotSet bad)) ∧
    (∀ (bad : EriTransaction) rest idx acc, bad.isin = "" →
        bad.price ≠ none →
        processTransactions (bad :: rest) idx acc =
          .error (.isinNotSet bad)) ∧
    (∀ (ts : List EriTransaction) (e : MergeError),
        (∀ t ∈ ts, goodRecord t) →
        validate_and_remove_duplicates ts = .error e →
        ∃ t current, e = .duplicateDifferentPrice t current) := by
  refine ⟨?_, ?_, ?_, ?_⟩
  · intro ts bad hmem hbad
    obtain ⟨e, he⟩ := processTransactions_error_of_bad ts [] []
      ⟨bad, hmem, fun hg => by
        rcases hbad with hb | hb
        · exact hg.1 hb
        · exact hg.2 hb⟩
    exact ⟨e, (validate_eq_error_iff ts e).2 he⟩
  · intro bad rest idx acc hp
    simp [processTransactions, hp]
  · intro bad rest idx acc hi hp
    obtain ⟨p, hp'⟩ := Option.ne_none_iff_exists'.1 hp
    simp [processTransactions, hp', hi]
  · intro ts e hg hv
    exact processTransactions_error_good ts [] [] e hg (by simp)
      ((validate_eq_error_iff ts e).1 hv)

theorem merge_precondition_failures_witness :
    ((⟨1, "A", none, "X"⟩ : EriTransaction).price = none) ∧
    processTransactions [⟨1, "A", none, "X"⟩] [] [] =
      .error (.priceNotSet ⟨1, "A", none, "X"⟩) ∧
    ((⟨1, "", some 1, "X"⟩ : EriTransaction).isin = "") ∧
    processTransactions [⟨1, "", some 1, "X"⟩] [] [] =
      .error (.isinNotSet ⟨1, "", some 1, "X"⟩) :=
  ⟨rfl,
    merge_precondition_failures.2.1 ⟨1, "A", none, "X"⟩ [] [] [] rfl,
    rfl,
    merge_precondition_failures.2.2.1 ⟨1, "", some 1, "X"⟩ [] [] [] rfl
      (by simp)⟩

/-- C4: a successful merge returns a sequence sorted non-decreasing by
date, and the sort is stable: records with equal dates keep the relative
order they had in the deduplicated input sequence (the loop output before
sorting). -/
theorem merge_output_sorted_and_stable
    (E I pre res : List EriTransaction)
    (hpre : processTransactions (E ++ I) [] [] = .ok pre)
    (hres : merge E I = .ok res) :
    List.Sorted dateLe res ∧
    ∀ d : Nat, res.filter (fun t => t.date == d) =
      pre.filter (fun t => t.date == d) := by
  obtain ⟨pre', hpre', rfl⟩ := (validate_eq_ok_iff _ _).1 hres
  have hpp : pre = pre' := Except.ok.inj (hpre.symm.trans hpre')
  subst hpp
  exact ⟨List.sorted_insertionSort dateLe pre,
    fun d => filter_insertionSort pre d⟩

theorem merge_output_sorted_and_stable_witness :
    processTransactions ([] ++ [exE2, exE1]) [] [] = .ok [exE2, exE1] ∧
    merge [] [exE2, exE1] = .ok [exE2, exE1] ∧
    (List.Sorted dateLe [exE2, exE1] ∧
      ∀ d : Nat, ([exE2, exE1].filter (fun t => t.date == d)) =
        ([exE2, exE1].filter (fun t => t.date == d))) :=
  ⟨rfl, rfl,
    merge_output_sorted_and_stable [] [exE2, exE1] [exE2, exE1]
      [exE2, exE1] rfl rfl⟩

/-- C6: merging the same incoming records a second time into the store
produced by a successful merge returns that store unchanged — no
duplicate rows and no change of order. -/
theorem merge_idempotent (E I S : List EriTransaction)
    (h : merge E I = .ok S) : merge S I = .ok S := by
  obtain ⟨pre, hpre, rfl⟩ := (validate_eq_ok_iff _ _).1 h
  obtain ⟨m1, m2, m3, m4, m5⟩ :=
    processTransactions_ok (E ++ I) [] pre (by simp) (by simp) hpre
  have hperm : List.Perm (List.insertionSort dateLe pre) pre :=
    List.perm_insertionSort _ _
  have hSgood : ∀ t ∈ List.insertionSort dateLe pre, goodRecord t :=
    fun t ht => m2 t (hperm.mem_iff.1 ht)
  have hSnd : ((List.insertionSort dateLe pre).map keyOf).Nodup :=
    ((hperm.map keyOf).nodup_iff).2 m3
  have hA := processTransactions_append_fresh
    (List.insertionSort dateLe pre) I [] [] hSgood (fun t _ => rfl) hSnd
  simp only [List.nil_append, List.append_nil] at hA
  have hskip : ∀ t ∈ I, ∃ u pu pt,
      lookupKey (indexList (List.insertionSort dateLe pre)) (keyOf t) =
        some u ∧
      u.price = some pu ∧ t.price = some pt ∧ t.isin ≠ "" ∧
      approx_equal pu pt eriTolerance = true := by
    intro t ht
    obtain ⟨u, pu, pt, humem, hku, hpu, hpt, ha⟩ :=
      m5 t (List.mem_append_right E ht)
    refine ⟨u, pu, pt, ?_, hpu, hpt,
      (m4 t (List.mem_append_right E ht)).2, ha⟩
    rw [← hku]
    exact lookupKey_indexList_of_mem _ u hSnd (hperm.mem_iff.2 humem)
  have hB := processTransactions_all_skipped I
    (indexList (List.insertionSort dateLe pre))
    (List.insertionSort dateLe pre).reverse hskip
  rw [List.reverse_reverse] at hB
  show validate_and_remove_duplicates _ = _
  rw [validate_and_remove_duplicates, hA, hB]
  simp only [Except.map]
  rw [List.Sorted.insertionSort_eq (List.sorted_insertionSort dateLe pre)]

theorem merge_idempotent_witness :
    merge [exA] [exD] = .ok [exD, exA] ∧
    merge [exD, exA] [exD] = .ok [exD, exA] :=
  ⟨rfl, merge_idempotent [exA] [exD] [exD, exA] rfl⟩

/-- C10: the merge concatenates existing and incoming records into one
pass over a single index, so the split point between the two sequences is
irrelevant; the merge is total (always returns a result or an error), and
duplicate keys inside the existing sequence get the same treatment as
existing-vs-incoming duplicates: a within-tolerance pair collapses to its
first occurrence and a beyond-tolerance pair raises the conflict error. -/
theorem merge_existing_duplicates
    (t1 t2 : EriTransaction) (p1 p2 : Rat)
    (h1 : t1.price = some p1) (h2 : t2.price = some p2)
    (hi1 : t1.isin ≠ "") (hi2 : t2.isin ≠ "")
    (hkey : keyOf t1 = keyOf t2) :
    (∀ E1 E2 I : List EriTransaction,
        merge (E1 ++ E2) I = merge E1 (E2 ++ I)) ∧
    (∀ E I : List EriTransaction,
        (∃ r, merge E I = .ok r) ∨ (∃ e, merge E I = .error e)) ∧
    (approx_equal p1 p2 eriTolerance = true →
        merge [t1, t2] [] = .ok [t1]) ∧
    (approx_equal p1 p2 eriTolerance = false →
        merge [t1, t2] [] = .error (.duplicateDifferentPrice t2 t1)) := by
  have hv := validate_pair t1 t2 p1 p2 h1 h2 hi1 hi2 hkey
  have hm : merge [t1, t2] [] = validate_and_remove_duplicates [t1, t2] :=
    rfl
  refine ⟨?_, ?_, ?_, ?_⟩
  · intro E1 E2 I
    simp only [merge, List.append_assoc]
  · intro E I
    cases h : merge E I with
    | ok r => exact Or.inl ⟨r, rfl⟩
    | error e => exact Or.inr ⟨e, rfl⟩
  · intro ha
    rw [hm, hv, ha, if_pos rfl]
  · intro ha
    rw [hm, hv, ha]
    simp

theorem merge_existing_duplicates_witness :
    approx_equal 1.23 1.2301 eriTolerance = true ∧
    merge [exA, exB] [] = .ok [exA] ∧
    approx_equal 1.23 1.5 eriTolerance = false ∧
    merge [exA, exC] [] = .error (.duplicateDifferentPrice exC exA) :=
  ⟨by norm_num [approx_equal, eriTolerance, abs_le],
    (merge_existing_duplicates exA exB 1.23 1.2301 rfl rfl (by decide)
      (by decide) rfl).2.2.1
      (by norm_num [approx_equal, eriTolerance, abs_le]),
    by norm_num [approx_equal, eriTolerance, abs_le],
    (merge_existing_duplicates exA exC 1.23 1.5 rfl rfl (by decide)
      (by decide) rfl).2.2.2
      (by norm_num [approx_equal, eriTolerance, abs_le])⟩

def exDecliner : EriParser := ⟨"D", fun _ => none⟩

def exAccepter : EriParser := ⟨"A", fun _ => some ⟨[exA], "s"⟩⟩

def exEmptyStores : StoreMap := fun _ => []

/-- C7: the import tries the registered parsers in list order; the first
parser returning a non-`none` output fully determines the result, exactly
as if it were the only parser (so parsers after it are never consulted);
and when every parser declines the file, the import returns normally with
the `noParser` warning outcome and the stores untouched — not an
error. -/
theorem import_dispatch_first_accepting :
    (∀ (parsers : List EriParser) (stores : StoreMap) (file : String),
        (∀ p ∈ parsers, p.parse file = none) →
        eri_import_from_file parsers stores file = (stores, .noParser)) ∧
    (∀ (ps₁ : List EriParser) (p : EriParser) (ps₂ : List EriParser)
        (stores : StoreMap) (file : String) (data : EriParserOutput),
        (∀ q ∈ ps₁, q.parse file = none) → p.parse file = some data →
        eri_import_from_file (ps₁ ++ p :: ps₂) stores file =
          eri_import_from_file [p] stores file) := by
  constructor
  · intro parsers
    induction parsers with
    | nil => intro stores file _; rfl
    | cons p rest ih =>
      intro stores file h
      have hp := h p (List.mem_cons_self p rest)
      simp only [eri_import_from_file, hp]
      exact ih stores file (fun q hq => h q (List.mem_cons_of_mem _ hq))
  · intro ps₁
    induction ps₁ with
    | nil =>
      intro p ps₂ stores file data _ hp
      simp only [List.nil_append, eri_import_from_file, hp]
    | cons q ps₁ ih =>
      intro p ps₂ stores file data hdecl hp
      have hq := hdecl q (List.mem_cons_self q ps₁)
      simp only [List.cons_append, eri_import_from_file, hq]
      exact ih p ps₂ stores file data
        (fun r hr => hdecl r (List.mem_cons_of_mem _ hr)) hp

theorem import_dispatch_first_accepting_witness :
    (∀ p ∈ [exDecliner], p.parse "f" = none) ∧
    exAccepter.parse "f" = some ⟨[exA], "s"⟩ ∧
    eri_import_from_file [exDecliner] exEmptyStores "f" =
      (exEmptyStores, .noParser) ∧
    eri_import_from_file ([exDecliner] ++ exAccepter :: [exDecliner])
        exEmptyStores "f" =
      eri_import_from_file [exAccepter] exEmptyStores "f" :=
  ⟨fun p hp => by rw [List.mem_singleton] at hp; subst hp; rfl,
    rfl,
    import_dispatch_first_accepting.1 [exDecliner] exEmptyStores "f"
      (fun p hp => by rw [List.mem_singleton] at hp; subst hp; rfl),
    import_dispatch_first_accepting.2 [exDecliner] exAccepter [exDecliner]
      exEmptyStores "f" ⟨[exA], "s"⟩
      (fun p hp => by rw [List.mem_singleton] at hp; subst hp; rfl) rfl⟩

/-- C8 (code bug): the runtime check `assert data` at data_import.py line
89 tests the truthiness of an `EriParserOutput` dataclass instance, which
is always true, so the check can never fire for any input; in particular
a parser that accepts a file but returns zero transactions makes the store
get rewritten as if the run had succeeded, instead of failing fast as the
spec requires. -/
theorem import_zero_records_check_never_fires :
    (∀ (parsers : List EriParser) (stores : StoreMap) (file : String)
        (pn : String),
        (eri_import_from_file parsers stores file).2 ≠
          .assertFailedEmptyOutput pn) ∧
    (eri_import_from_file [⟨"P", fun _ => some ⟨[], "s"⟩⟩]
        exEmptyStores "f").2 = .written "P" "s" [] := by
  constructor
  · intro parsers
    induction parsers with
    | nil =>
      intro stores file pn h
      simp [eri_import_from_file] at h
    | cons p rest ih =>
      intro stores file pn h
      cases hp : p.parse file with
      | none =>
        rw [show eri_import_from_file (p :: rest) stores file =
            eri_import_from_file rest stores file by
          simp [eri_import_from_file, hp]] at h
        exact ih stores file pn h
      | some data =>
        cases hv : validate_and_remove_duplicates
            (stores data.output_file_name ++ data.transactions) with
        | error e =>
          simp [eri_import_from_file, hp, EriParserOutput.truthy, hv] at h
        | ok tr =>
          simp [eri_import_from_file, hp, EriParserOutput.truthy, hv] at h
  · rfl

theorem import_zero_records_check_never_fires_witness :
    (eri_import_from_file [] exEmptyStores "f").2 ≠
      .assertFailedEmptyOutput "P" :=
  import_zero_records_check_never_fires.1 [] exEmptyStores "f" "P"

/-- C2: when the merge fails, `eri_import_from_file` returns the store
map unchanged: the store file write happens only after the entire merge
has succeeded, so no incoming record — conflicting or not — is
persisted. -/
theorem import_conflict_leaves_stores_unchanged
    (parsers : List EriParser) (stores : StoreMap) (file : String)
    (e : MergeError)
    (h : (eri_import_from_file parsers stores file).2 = .mergeFailed e) :
    (eri_import_from_file parsers stores file).1 = stores := by
  revert h
  induction parsers with
  | nil => intro h; rfl
  | cons p rest ih =>
    intro h
    cases hp : p.parse file with
    | none =>
      have hred : eri_import_from_file (p :: rest) stores file =
          eri_import_from_file rest stores file := by
        simp [eri_import_from_file, hp]
      rw [hred] at h ⊢
      exact ih h
    | some data =>
      cases hv : validate_and_remove_duplicates
          (stores data.output_file_name ++ data.transactions) with
      | error e' =>
        have hred : eri_import_from_file (p :: rest) stores file =
            (stores, .mergeFailed e') := by
          simp [eri_import_from_file, hp, EriParserOutput.truthy, hv]
        rw [hred]
      | ok tr =>
        have hred : eri_import_from_file (p :: rest) stores file =
            (updateStore stores data.output_file_name tr,
              .written p.name data.output_file_name tr) := by
          simp [eri_import_from_file, hp, EriParserOutput.truthy, hv]
        rw [hred] at h
        exact absurd h (by simp)

def exConflictParser : EriParser := ⟨"P", fun _ => some ⟨[exC], "s"⟩⟩

def exStoresA : StoreMap := fun _ => [exA]

theorem import_conflict_leaves_stores_unchanged_witness :
    (eri_import_from_file [exConflictParser] exStoresA "f").2 =
      .mergeFailed (.duplicateDifferentPrice exC exA) ∧
    (eri_import_from_file [exConflictParser] exStoresA "f").1 =
      exStoresA := by
  have ha : approx_equal 1.23 1.5 eriTolerance = false := by
    norm_num [approx_equal, eriTolerance, abs_le]
  have hv : validate_and_remove_duplicates [exA, exC] =
      .error (.duplicateDifferentPrice exC exA) := by
    rw [validate_pair exA exC 1.23 1.5 rfl rfl (by decide) (by decide)
      rfl, ha]
    simp
  have h2 : (eri_import_from_file [exConflictParser] exStoresA "f").2 =
      .mergeFailed (.duplicateDifferentPrice exC exA) := by
    have hstore : exStoresA "s" ++ [exC] = [exA, exC] := rfl
    simp only [eri_import_from_file, exConflictParser,
      EriParserOutput.truthy, hstore, hv]
    simp
  exact ⟨h2,
    import_conflict_leaves_stores_unchanged [exConflictParser] exStoresA
      "f" (.duplicateDifferentPrice exC exA) h2⟩

end EriImport
